import Mathlib

/-!
Shallow embedding of `heredity.py`: exact Bayesian inference over gene
counts and an observable trait for a small pedigree.

Python floats are modelled as rationals (`ℚ`); Python dicts mapping person
names to records become association lists in key-insertion order; Python
sets of names become `Finset String`.  A Python runtime failure
(`NameError` from reading a never-assigned local, `ZeroDivisionError` from
dividing by zero) is modelled by an `Option` result being `none`.
-/

/-- PROBS["gene"]: unconditional probabilities for the number of gene copies. -/
def probsGene (g : ℕ) : ℚ :=
  if g = 2 then 1/100 else if g = 1 then 3/100 else 96/100

/-- PROBS["trait"][g][t]: probability of trait value `t` given `g` gene copies. -/
def probsTrait (g : ℕ) (t : Bool) : ℚ :=
  if g = 2 then (if t then 65/100 else 35/100)
  else if g = 1 then (if t then 56/100 else 44/100)
  else (if t then 1/100 else 99/100)

/-- PROBS["mutation"]. -/
def mutation : ℚ := 1/100

/-- One row of the population dictionary built by `load_data`: optional
mother name, optional father name, optional observed trait. -/
structure Person where
  mother : Option String
  father : Option String
  trait : Option Bool
deriving DecidableEq

/-- The population dictionary: association list from names to records,
in insertion order (Python dicts iterate in insertion order). -/
abbrev Population := List (String × Person)

/-- The names of the people in the population (`set(people)` in `main`,
modelled as the key list; keys of a dict are distinct). -/
def nameList (people : Population) : List String := people.map (·.1)

/-- Transmission probability assigned to a parent name inside
`joint_probability`: 0.5 if the parent is in `one_gene`, `1 - mutation` if
in `two_genes`, `mutation` otherwise (this is the shared shape of the
`from_mother` and `from_father` assignments, lines 154-168). -/
def fromParent (p : String) (one_gene two_genes : Finset String) : ℚ :=
  if p ∈ one_gene then 1/2
  else if p ∈ two_genes then 1 - mutation
  else mutation

/-- The child's gene-count probability term from its parents' transmission
probabilities, exactly as multiplied into `person_prob` (lines 170-175). -/
def geneFromParents (from_mother from_father : ℚ) (g : ℕ) : ℚ :=
  if g = 2 then from_mother * from_father
  else if g = 1 then (1 - from_mother) * from_father + (1 - from_father) * from_mother
  else (1 - from_mother) * (1 - from_father)

/-- Loop state of the `for person in people` loop of `joint_probability`:
the (possibly still unassigned) local variables `from_mother` and
`from_father`, which Python leaks across loop iterations, and the
`probabilites` list (kept in reverse order of appends). -/
structure JPState where
  from_mother : Option ℚ
  from_father : Option ℚ
  probabilites : List ℚ
deriving DecidableEq

/-- One iteration of the person loop of `joint_probability` (lines 143-183).
`none` models the `NameError` raised when `from_mother` / `from_father` is
read without ever having been assigned. -/
def jpStep (one_gene two_genes have_trait : Finset String)
    (st : JPState) (entry : String × Person) : Option JPState :=
  let person := entry.1
  let pr := entry.2
  let person_genes : ℕ :=
    if person ∈ two_genes then 2 else if person ∈ one_gene then 1 else 0
  let person_trait : Bool := person ∈ have_trait
  if person ∉ one_gene ∨ person ∉ two_genes then
    if pr.mother ≠ none ∨ pr.father ≠ none then
      let envM : Option ℚ := match pr.mother with
        | some m => some (fromParent m one_gene two_genes)
        | none => st.from_mother
      let envF : Option ℚ := match pr.father with
        | some f => some (fromParent f one_gene two_genes)
        | none => st.from_father
      match envM, envF with
      | some fm, some ff =>
          some ⟨some fm, some ff,
            (geneFromParents fm ff person_genes *
              probsTrait person_genes person_trait) :: st.probabilites⟩
      | _, _ => none
    else
      some ⟨st.from_mother, st.from_father,
        (probsGene person_genes * probsTrait person_genes person_trait) ::
          st.probabilites⟩
  else
    some st

/-- The person loop of `joint_probability`, run to completion. -/
def jpLoop (one_gene two_genes have_trait : Finset String) :
    List (String × Person) → JPState → Option JPState
  | [], st => some st
  | e :: rest, st =>
      match jpStep one_gene two_genes have_trait st e with
      | none => none
      | some st' => jpLoop one_gene two_genes have_trait rest st'

/-- `joint_probability(people, one_gene, two_genes, have_trait)`
(lines 131-190): run the person loop from unassigned locals and an empty
`probabilites` list, then multiply the collected factors. -/
def joint_probability (people : Population)
    (one_gene two_genes have_trait : Finset String) : Option ℚ :=
  match jpLoop one_gene two_genes have_trait people ⟨none, none, []⟩ with
  | none => none
  | some st => some (st.probabilites.foldl (· * ·) 1)

/-- Gene count assigned to a person by a hypothesis (line 145). -/
def geneAssign (person : String) (one_gene two_genes : Finset String) : ℕ :=
  if person ∈ two_genes then 2 else if person ∈ one_gene then 1 else 0

/-- The list of factors (0 or 1 of them) the loop body appends to
`probabilites` for one person; used to describe the loop's result. -/
def personFactors (one_gene two_genes have_trait : Finset String)
    (e : String × Person) : List ℚ :=
  let g := geneAssign e.1 one_gene two_genes
  let t : Bool := e.1 ∈ have_trait
  if e.1 ∉ one_gene ∨ e.1 ∉ two_genes then
    match e.2.mother, e.2.father with
    | some m, some f =>
        [geneFromParents (fromParent m one_gene two_genes)
          (fromParent f one_gene two_genes) g * probsTrait g t]
    | none, none => [probsGene g * probsTrait g t]
    | _, _ => []
  else []

/-- A population record has either both parent references or neither
(the data-integrity invariant of the spec). -/
def BothOrNoParents (pr : Person) : Prop :=
  (pr.mother = none ∧ pr.father = none) ∨ (pr.mother ≠ none ∧ pr.father ≠ none)

instance (pr : Person) : Decidable (BothOrNoParents pr) := by
  unfold BothOrNoParents; infer_instance

/-- Per-person contribution as the specification words it: the gene term is
the prior for parentless people and otherwise `pM·pF`, `pM·(1−pF)+(1−pM)·pF`
or `(1−pM)·(1−pF)` from the parents' transmission probabilities, multiplied
by the trait emission. -/
def specContribution (one_gene two_genes have_trait : Finset String)
    (e : String × Person) : ℚ :=
  let g := geneAssign e.1 one_gene two_genes
  let t : Bool := e.1 ∈ have_trait
  let geneP : ℚ :=
    match e.2.mother, e.2.father with
    | some m, some f =>
        let pM := fromParent m one_gene two_genes
        let pF := fromParent f one_gene two_genes
        if g = 2 then pM * pF
        else if g = 1 then pM * (1 - pF) + (1 - pM) * pF
        else (1 - pM) * (1 - pF)
    | _, _ => probsGene g
  geneP * probsTrait g t

/-- Joint probability as the specification words it: the product over every
person of gene-probability times trait-emission. -/
def jointSpec (people : Population)
    (one_gene two_genes have_trait : Finset String) : ℚ :=
  (people.map (specContribution one_gene two_genes have_trait)).prod

/-- Swap the mother and father fields of one record. -/
def swapParents (pr : Person) : Person := ⟨pr.father, pr.mother, pr.trait⟩

/-- Swap which parent is listed as mother and which as father on the
record of person `x`. -/
def swapAt (people : Population) (x : String) : Population :=
  people.map (fun e => if e.1 = x then (e.1, swapParents e.2) else e)

/-- The evidence filter of `main` (lines 68-72): a candidate `have_trait`
set fails if some person's recorded trait is known and disagrees with the
person's membership in `have_trait`. -/
def fails_evidence (people : Population) (have_trait : Finset String) : Bool :=
  people.any (fun e =>
    match e.2.trait with
    | some b => b != decide (e.1 ∈ have_trait)
    | none => false)

/-- Per-person accumulated distributions (the nested dicts built in
`main`, lines 48-61): gene-count buckets 0/1/2 and trait buckets
True/False. -/
structure PersonDist where
  gene0 : ℚ
  gene1 : ℚ
  gene2 : ℚ
  traitT : ℚ
  traitF : ℚ
deriving DecidableEq

/-- Total accumulated gene-count mass of one person. -/
def geneSum (d : PersonDist) : ℚ := d.gene0 + d.gene1 + d.gene2

/-- Total accumulated trait mass of one person. -/
def traitSum (d : PersonDist) : ℚ := d.traitT + d.traitF

/-- The all-zero distributions `main` starts from. -/
def initDist : PersonDist := ⟨0, 0, 0, 0, 0⟩

/-- The `probabilities` dictionary as initialized in `main`. -/
def initProbabilities (people : Population) : List (String × PersonDist) :=
  people.map (fun e => (e.1, initDist))

/-- Body of the person loop of `update` (lines 199-212): add `p` to one
gene bucket (checking `one_gene` first) and one trait bucket. -/
def updatePerson (one_gene two_genes have_trait : Finset String) (p : ℚ)
    (e : String × PersonDist) : String × PersonDist :=
  let d := e.2
  let d1 := if e.1 ∈ one_gene then { d with gene1 := d.gene1 + p }
    else if e.1 ∈ two_genes then { d with gene2 := d.gene2 + p }
    else { d with gene0 := d.gene0 + p }
  let d2 := if e.1 ∈ have_trait then { d1 with traitT := d1.traitT + p }
    else { d1 with traitF := d1.traitF + p }
  (e.1, d2)

/-- `update(probabilities, one_gene, two_genes, have_trait, p)`
(lines 192-212): update every person's distributions. -/
def update (probabilities : List (String × PersonDist))
    (one_gene two_genes have_trait : Finset String) (p : ℚ) :
    List (String × PersonDist) :=
  probabilities.map (updatePerson one_gene two_genes have_trait p)

/-- `normalize` body for one person (lines 221-242): rescale the trait
pair, then the gene triple, skipping a rescale whose values already sum
to 1; `none` models the `ZeroDivisionError` Python raises when a sum
is 0 (0 ≠ 1, so the division is attempted). -/
def normalizePerson (d : PersonDist) : Option PersonDist :=
  let summary := d.traitT + d.traitF
  let step1 : Option PersonDist :=
    if summary ≠ 1 then
      if summary = 0 then none
      else some { d with traitT := d.traitT / summary,
                         traitF := d.traitF / summary }
    else some d
  match step1 with
  | none => none
  | some d1 =>
    let summary_genes := d1.gene0 + d1.gene1 + d1.gene2
    if summary_genes ≠ 1 then
      if summary_genes = 0 then none
      else some { d1 with gene0 := d1.gene0 / summary_genes,
                          gene1 := d1.gene1 / summary_genes,
                          gene2 := d1.gene2 / summary_genes }
    else some d1

/-- `normalize(probabilities)` (lines 216-242) over every person; an
exception for any person aborts the whole run.  (Named `normalizeProbs`
here only because Mathlib already declares a root `normalize`.) -/
def normalizeProbs (probabilities : List (String × PersonDist)) :
    Option (List (String × PersonDist)) :=
  probabilities.mapM (fun e => (normalizePerson e.2).map (fun d => (e.1, d)))

/-- `powerset(s)` (lines 119-128): the list of all subsets of the given
elements, each exactly once when the elements are distinct (the Python
builds them with `itertools.combinations` grouped by size; set iteration
order is unspecified, and no caller depends on the order, so subsets are
enumerated here by structural recursion on the element list instead). -/
def powerset : List String → List (Finset String)
  | [] => [∅]
  | a :: l => powerset l ++ (powerset l).map (insert a)

/-- The two inner loops of `main` (lines 77-78): every `one_gene` subset
paired with every `two_genes` subset of the remaining names. -/
def genePairs (names : List String) : List (Finset String × Finset String) :=
  (powerset names).flatMap (fun og =>
    (powerset (names.filter (fun x => x ∉ og))).map (fun tg => (og, tg)))

/-- The full triple enumeration of `main` (lines 65-78), before the
evidence filter: every `have_trait` subset with every disjoint
`(one_gene, two_genes)` pair. -/
def allHypotheses (names : List String) :
    List (Finset String × Finset String × Finset String) :=
  (powerset names).flatMap (fun ht =>
    (genePairs names).map (fun p => (ht, p.1, p.2)))

/-- The hypothesis loop of `main` (lines 63-82): for every `have_trait`
subset passing the evidence filter and every disjoint gene-set pair,
accumulate the joint probability. `none` models an uncaught exception
from `joint_probability`. -/
def accumulate (people : Population) :
    Option (List (String × PersonDist)) :=
  (powerset (nameList people)).foldlM (fun probs have_trait =>
    if fails_evidence people have_trait then some probs
    else
      (powerset (nameList people)).foldlM (fun probs one_gene =>
        (powerset ((nameList people).filter (fun x => x ∉ one_gene))).foldlM
          (fun probs two_genes =>
            match joint_probability people one_gene two_genes have_trait with
            | none => none
            | some p => some (update probs one_gene two_genes have_trait p))
          probs)
        probs)
    (initProbabilities people)

/-- The whole inference run of `main` (lines 48-85): accumulate over all
evidence-consistent hypotheses, then normalize. -/
def runInference (people : Population) : Option (List (String × PersonDist)) :=
  match accumulate people with
  | none => none
  | some probs => normalizeProbs probs


theorem personFactors_reverse (one_gene two_genes have_trait : Finset String)
    (e : String × Person) :
    (personFactors one_gene two_genes have_trait e).reverse =
      personFactors one_gene two_genes have_trait e := by
  unfold personFactors
  split
  · split <;> rfl
  · rfl

theorem jpStep_some (one_gene two_genes have_trait : Finset String)
    (e : String × Person) (h : BothOrNoParents e.2) (st : JPState) :
    ∃ eM eF, jpStep one_gene two_genes have_trait st e =
      some ⟨eM, eF,
        personFactors one_gene two_genes have_trait e ++ st.probabilites⟩ := by
  obtain ⟨hm, hf⟩ | ⟨hm, hf⟩ := h
  · by_cases hg : e.1 ∉ one_gene ∨ e.1 ∉ two_genes
    · exact ⟨st.from_mother, st.from_father, by
        simp [jpStep, personFactors, geneAssign, hg, hm, hf]⟩
    · exact ⟨st.from_mother, st.from_father, by
        simp [jpStep, personFactors, hg]⟩
  · obtain ⟨m, hm⟩ := Option.ne_none_iff_exists'.mp hm
    obtain ⟨f, hf⟩ := Option.ne_none_iff_exists'.mp hf
    by_cases hg : e.1 ∉ one_gene ∨ e.1 ∉ two_genes
    · exact ⟨some (fromParent m one_gene two_genes),
        some (fromParent f one_gene two_genes), by
        simp [jpStep, personFactors, geneAssign, hg, hm, hf]⟩
    · exact ⟨st.from_mother, st.from_father, by
        simp [jpStep, personFactors, hg]⟩

theorem jpLoop_factors (one_gene two_genes have_trait : Finset String) :
    ∀ (people : List (String × Person)),
    (∀ e ∈ people, BothOrNoParents e.2) → ∀ st : JPState,
    ∃ eM eF, jpLoop one_gene two_genes have_trait people st =
      some ⟨eM, eF,
        (people.flatMap (personFactors one_gene two_genes have_trait)).reverse
          ++ st.probabilites⟩ := by
  intro people
  induction people with
  | nil =>
      intro _ st
      exact ⟨st.from_mother, st.from_father, by simp [jpLoop]⟩
  | cons e rest ih =>
      intro h st
      obtain ⟨eM, eF, hstep⟩ :=
        jpStep_some one_gene two_genes have_trait e (h e (by simp)) st
      obtain ⟨eM', eF', hloop⟩ :=
        ih (fun x hx => h x (by simp [hx]))
          ⟨eM, eF, personFactors one_gene two_genes have_trait e ++ st.probabilites⟩
      refine ⟨eM', eF', ?_⟩
      simp [jpLoop, hstep, hloop, List.reverse_append, personFactors_reverse,
        List.append_assoc]

theorem joint_probability_eq_prod (people : Population)
    (one_gene two_genes have_trait : Finset String)
    (h : ∀ e ∈ people, BothOrNoParents e.2) :
    joint_probability people one_gene two_genes have_trait =
      some ((people.flatMap (personFactors one_gene two_genes have_trait)).prod) := by
  obtain ⟨eM, eF, hl⟩ :=
    jpLoop_factors one_gene two_genes have_trait people h ⟨none, none, []⟩
  simp only [joint_probability, hl, List.append_nil]
  rw [← List.prod_eq_foldl, List.prod_reverse]

theorem personFactors_eq_spec (one_gene two_genes have_trait : Finset String)
    (e : String × Person) (hd : Disjoint one_gene two_genes)
    (h : BothOrNoParents e.2) :
    personFactors one_gene two_genes have_trait e =
      [specContribution one_gene two_genes have_trait e] := by
  have hg : e.1 ∉ one_gene ∨ e.1 ∉ two_genes := by
    by_cases hx : e.1 ∈ one_gene
    · exact Or.inr (Finset.disjoint_left.mp hd hx)
    · exact Or.inl hx
  obtain ⟨hm, hf⟩ | ⟨hm, hf⟩ := h
  · simp [personFactors, specContribution, hg, hm, hf]
  · obtain ⟨m, hm⟩ := Option.ne_none_iff_exists'.mp hm
    obtain ⟨f, hf⟩ := Option.ne_none_iff_exists'.mp hf
    simp only [personFactors, specContribution, hg, if_true, hm, hf,
      geneFromParents, List.cons.injEq, and_true]
    split_ifs <;> ring

/-- C1: under the both-parents-or-none invariant and disjoint gene sets,
`joint_probability` returns exactly the product, over every person in the
population, of the claimed gene probability (prior if parentless, else the
transmission terms) times the trait emission probability. -/
theorem joint_probability_correct (people : Population)
    (one_gene two_genes have_trait : Finset String)
    (hd : Disjoint one_gene two_genes)
    (h : ∀ e ∈ people, BothOrNoParents e.2) :
    joint_probability people one_gene two_genes have_trait =
      some (jointSpec people one_gene two_genes have_trait) := by
  rw [joint_probability_eq_prod people one_gene two_genes have_trait h]
  congr 1
  unfold jointSpec
  congr 1
  induction people with
  | nil => rfl
  | cons e rest ih =>
      rw [List.flatMap_cons, List.map_cons,
        personFactors_eq_spec one_gene two_genes have_trait e hd
          (h e (by simp)),
        ih (fun x hx => h x (by simp [hx]))]
      rfl

/-- Witness for C1 on a two-person mother/child population. -/
theorem joint_probability_correct_witness :
    Disjoint ({"m"} : Finset String) (∅ : Finset String) ∧
    (∀ e ∈ ([("m", ⟨none, none, none⟩),
        ("c", ⟨some "m", some "f", none⟩)] : Population), BothOrNoParents e.2) ∧
    joint_probability
      [("m", ⟨none, none, none⟩), ("c", ⟨some "m", some "f", none⟩)]
      {"m"} ∅ {"c"} =
      some (jointSpec
        [("m", ⟨none, none, none⟩), ("c", ⟨some "m", some "f", none⟩)]
        {"m"} ∅ {"c"}) :=
  ⟨by decide, by decide,
    joint_probability_correct _ _ _ _ (by decide) (by decide)⟩

/-- C9: under the both-parents-or-none invariant `joint_probability` is
total — the person loop never reads an unassigned transmission variable,
so the evaluator returns a value for every hypothesis. -/
theorem joint_probability_total (people : Population)
    (one_gene two_genes have_trait : Finset String)
    (h : ∀ e ∈ people, BothOrNoParents e.2) :
    ∃ q, joint_probability people one_gene two_genes have_trait = some q :=
  ⟨_, joint_probability_eq_prod people one_gene two_genes have_trait h⟩

/-- Witness for C9. -/
theorem joint_probability_total_witness :
    (∀ e ∈ ([("m", ⟨none, none, none⟩),
        ("c", ⟨some "m", some "f", none⟩)] : Population), BothOrNoParents e.2) ∧
    ∃ q, joint_probability
      [("m", ⟨none, none, none⟩), ("c", ⟨some "m", some "f", none⟩)]
      ∅ {"c"} {"m"} = some q :=
  ⟨by decide, joint_probability_total _ _ _ _ (by decide)⟩

theorem geneFromParents_comm (a b : ℚ) (g : ℕ) :
    geneFromParents a b g = geneFromParents b a g := by
  unfold geneFromParents
  split_ifs <;> ring

theorem BothOrNoParents.swap {pr : Person} (h : BothOrNoParents pr) :
    BothOrNoParents (swapParents pr) := by
  obtain ⟨hm, hf⟩ | ⟨hm, hf⟩ := h
  · exact Or.inl ⟨hf, hm⟩
  · exact Or.inr ⟨hf, hm⟩

theorem personFactors_swapParents (one_gene two_genes have_trait : Finset String)
    (n : String) (pr : Person) (h : BothOrNoParents pr) :
    personFactors one_gene two_genes have_trait (n, swapParents pr) =
      personFactors one_gene two_genes have_trait (n, pr) := by
  obtain ⟨hm, hf⟩ | ⟨hm, hf⟩ := h
  · simp [personFactors, swapParents, hm, hf]
  · obtain ⟨m, hm⟩ := Option.ne_none_iff_exists'.mp hm
    obtain ⟨f, hf⟩ := Option.ne_none_iff_exists'.mp hf
    simp [personFactors, swapParents, hm, hf, geneFromParents_comm]


unseal Rat.mul Rat.add Rat.sub Rat.inv in
/-- C8 counterexample: with a single-parent record in the population, the
leaked loop variables make `joint_probability` sensitive to which parent
of the two-parent child "c" is listed as mother: swapping them changes the
result, so the claim does not hold for every population. -/
theorem joint_probability_swap_counterexample :
    joint_probability
        (swapAt [("c", ⟨some "m", some "f", none⟩),
                 ("d", ⟨some "m2", none, none⟩)] "c")
        ∅ {"f"} ∅ ≠
      joint_probability
        [("c", ⟨some "m", some "f", none⟩),
         ("d", ⟨some "m2", none, none⟩)]
        ∅ {"f"} ∅ := by
  decide

theorem flatMap_personFactors_swapAt (people : Population)
    (one_gene two_genes have_trait : Finset String) (x : String)
    (h : ∀ e ∈ people, BothOrNoParents e.2) :
    (swapAt people x).flatMap (personFactors one_gene two_genes have_trait) =
      people.flatMap (personFactors one_gene two_genes have_trait) := by
  induction people with
  | nil => rfl
  | cons e rest ih =>
      have he : BothOrNoParents e.2 := h e (by simp)
      have ihr := ih (fun a ha => h a (by simp [ha]))
      have hcons : swapAt (e :: rest) x =
          (if e.1 = x then (e.1, swapParents e.2) else e) :: swapAt rest x := rfl
      by_cases hx : e.1 = x
      · rw [hcons, if_pos hx, List.flatMap_cons,
          personFactors_swapParents one_gene two_genes have_trait e.1 e.2 he,
          ihr, List.flatMap_cons]
      · rw [hcons, if_neg hx, List.flatMap_cons, ihr, List.flatMap_cons]

/-- C8 amended: for populations satisfying the both-parents-or-none
invariant, swapping which parent of any person `x` is listed as mother and
which as father leaves `joint_probability` unchanged for every hypothesis. -/
theorem joint_probability_swap_eq (people : Population)
    (one_gene two_genes have_trait : Finset String) (x : String)
    (h : ∀ e ∈ people, BothOrNoParents e.2) :
    joint_probability (swapAt people x) one_gene two_genes have_trait =
      joint_probability people one_gene two_genes have_trait := by
  have h' : ∀ e ∈ swapAt people x, BothOrNoParents e.2 := by
    intro e he
    obtain ⟨a, ha, rfl⟩ := List.mem_map.mp he
    by_cases hx : a.1 = x
    · rw [if_pos hx]
      exact (h a ha).swap
    · rw [if_neg hx]
      exact h a ha
  rw [joint_probability_eq_prod _ _ _ _ h',
    joint_probability_eq_prod _ _ _ _ h,
    flatMap_personFactors_swapAt people one_gene two_genes have_trait x h]

unseal Rat.mul Rat.add Rat.sub Rat.inv in
/-- Witness for the amended C8. -/
theorem joint_probability_swap_eq_witness :
    (∀ e ∈ ([("m", ⟨none, none, none⟩),
        ("c", ⟨some "m", some "f", none⟩)] : Population), BothOrNoParents e.2) ∧
    joint_probability
        (swapAt [("m", ⟨none, none, none⟩),
                 ("c", ⟨some "m", some "f", none⟩)] "c")
        {"m"} {"f"} {"c"} =
      joint_probability
        [("m", ⟨none, none, none⟩), ("c", ⟨some "m", some "f", none⟩)]
        {"m"} {"f"} {"c"} :=
  ⟨by decide, joint_probability_swap_eq _ _ _ _ _ (by decide)⟩

/-- C6: for every combination of parental memberships, hence of the
transmission probabilities the evaluator assigns, the three child
gene-count terms of `joint_probability` sum to exactly 1. -/
theorem geneFromParents_sum_one (m f : String)
    (one_gene two_genes : Finset String) :
    geneFromParents (fromParent m one_gene two_genes)
        (fromParent f one_gene two_genes) 2 +
      geneFromParents (fromParent m one_gene two_genes)
        (fromParent f one_gene two_genes) 1 +
      geneFromParents (fromParent m one_gene two_genes)
        (fromParent f one_gene two_genes) 0 = 1 := by
  unfold geneFromParents
  norm_num
  ring

/-- C3: the evidence filter rejects a candidate `have_trait` set exactly
when some person has a recorded trait observation that disagrees with the
person's membership in `have_trait`; a candidate matching every known
observation is never rejected, and the decision reads nothing but the
recorded traits and `have_trait`. -/
theorem fails_evidence_iff (people : Population) (have_trait : Finset String) :
    (fails_evidence people have_trait = true ↔
      ∃ e ∈ people, ∃ b, e.2.trait = some b ∧ b ≠ decide (e.1 ∈ have_trait)) ∧
    ((∀ e ∈ people, ∀ b, e.2.trait = some b → (b = true ↔ e.1 ∈ have_trait)) →
      fails_evidence people have_trait = false) := by
  have hiff : fails_evidence people have_trait = true ↔
      ∃ e ∈ people, ∃ b, e.2.trait = some b ∧ b ≠ decide (e.1 ∈ have_trait) := by
    unfold fails_evidence
    rw [List.any_eq_true]
    constructor
    · rintro ⟨e, he, hb⟩
      cases h : e.2.trait with
      | some b =>
          rw [h] at hb
          exact ⟨e, he, b, h, bne_iff_ne.mp hb⟩
      | none => rw [h] at hb; exact absurd hb (by simp)
    · rintro ⟨e, he, b, hb, hne⟩
      refine ⟨e, he, ?_⟩
      rw [hb]
      exact bne_iff_ne.mpr hne
  refine ⟨hiff, fun hmatch => ?_⟩
  rw [Bool.eq_false_iff]
  intro htrue
  obtain ⟨e, he, b, hb, hne⟩ := hiff.mp htrue
  have hm := hmatch e he b hb
  apply hne
  cases b with
  | false =>
      have : e.1 ∉ have_trait := fun hp => absurd (hm.mpr hp) (by simp)
      simp [this]
  | true =>
      simp [hm.mp rfl]

theorem normalizePerson_eq (d : PersonDist) (hts : traitSum d ≠ 0)
    (hgs : geneSum d ≠ 0) :
    normalizePerson d =
      some ⟨d.gene0 / geneSum d, d.gene1 / geneSum d, d.gene2 / geneSum d,
        d.traitT / traitSum d, d.traitF / traitSum d⟩ := by
  have hts' : d.traitT + d.traitF ≠ 0 := hts
  have hgs' : d.gene0 + d.gene1 + d.gene2 ≠ 0 := hgs
  unfold normalizePerson
  by_cases h1 : d.traitT + d.traitF = 1
  · simp only [h1, ne_eq, not_true_eq_false, if_false]
    by_cases h2 : d.gene0 + d.gene1 + d.gene2 = 1
    · simp only [h2, ne_eq, not_true_eq_false, if_false]
      have e1 : d.traitT / traitSum d = d.traitT := by
        rw [show traitSum d = 1 from h1, div_one]
      have e2 : d.traitF / traitSum d = d.traitF := by
        rw [show traitSum d = 1 from h1, div_one]
      have e3 : d.gene0 / geneSum d = d.gene0 := by
        rw [show geneSum d = 1 from h2, div_one]
      have e4 : d.gene1 / geneSum d = d.gene1 := by
        rw [show geneSum d = 1 from h2, div_one]
      have e5 : d.gene2 / geneSum d = d.gene2 := by
        rw [show geneSum d = 1 from h2, div_one]
      rw [e1, e2, e3, e4, e5]
    · simp only [h2, ne_eq, not_false_eq_true, if_true, if_neg hgs']
      have e1 : d.traitT / traitSum d = d.traitT := by
        rw [show traitSum d = 1 from h1, div_one]
      have e2 : d.traitF / traitSum d = d.traitF := by
        rw [show traitSum d = 1 from h1, div_one]
      rw [e1, e2]
      rfl
  · simp only [h1, ne_eq, not_false_eq_true, if_true, if_neg hts']
    by_cases h2 : d.gene0 + d.gene1 + d.gene2 = 1
    · simp only [h2, ne_eq, not_true_eq_false, if_false]
      have e3 : d.gene0 / geneSum d = d.gene0 := by
        rw [show geneSum d = 1 from h2, div_one]
      have e4 : d.gene1 / geneSum d = d.gene1 := by
        rw [show geneSum d = 1 from h2, div_one]
      have e5 : d.gene2 / geneSum d = d.gene2 := by
        rw [show geneSum d = 1 from h2, div_one]
      rw [e3, e4, e5]
      rfl
    · simp only [h2, ne_eq, not_false_eq_true, if_true, if_neg hgs']
      rfl

/-- C4: when every person's accumulated gene masses and trait masses have
strictly positive sums, `normalize` succeeds and returns, per person,
distributions that sum to 1 and are positive rescalings of the
accumulated ones (relative proportions preserved). -/
theorem normalizeProbs_sums_to_one (st : List (String × PersonDist))
    (h : ∀ e ∈ st, 0 < geneSum e.2 ∧ 0 < traitSum e.2) :
    ∃ st', normalizeProbs st = some st' ∧
      List.Forall₂ (fun e e' : String × PersonDist =>
        e'.1 = e.1 ∧ geneSum e'.2 = 1 ∧ traitSum e'.2 = 1 ∧
        (∃ c : ℚ, 0 < c ∧ e'.2.gene0 = c * e.2.gene0 ∧
          e'.2.gene1 = c * e.2.gene1 ∧ e'.2.gene2 = c * e.2.gene2) ∧
        (∃ c : ℚ, 0 < c ∧ e'.2.traitT = c * e.2.traitT ∧
          e'.2.traitF = c * e.2.traitF)) st st' := by
  induction st with
  | nil => exact ⟨[], rfl, List.Forall₂.nil⟩
  | cons e rest ih =>
      obtain ⟨hg, ht⟩ := h e (by simp)
      obtain ⟨rest', hrest, hall⟩ := ih (fun x hx => h x (by simp [hx]))
      have hne := normalizePerson_eq e.2 (ne_of_gt ht) (ne_of_gt hg)
      refine ⟨(e.1, ⟨e.2.gene0 / geneSum e.2, e.2.gene1 / geneSum e.2,
          e.2.gene2 / geneSum e.2, e.2.traitT / traitSum e.2,
          e.2.traitF / traitSum e.2⟩) :: rest', ?_, ?_⟩
      · unfold normalizeProbs at hrest ⊢
        rw [List.mapM_cons, hne, hrest]
        rfl
      · refine List.Forall₂.cons ⟨rfl, ?_, ?_, ?_, ?_⟩ hall
        · show e.2.gene0 / geneSum e.2 + e.2.gene1 / geneSum e.2 +
            e.2.gene2 / geneSum e.2 = 1
          rw [div_add_div_same, div_add_div_same]
          exact div_self (ne_of_gt hg)
        · show e.2.traitT / traitSum e.2 + e.2.traitF / traitSum e.2 = 1
          rw [div_add_div_same]
          exact div_self (ne_of_gt ht)
        · exact ⟨(geneSum e.2)⁻¹, inv_pos.mpr hg,
            by rw [inv_mul_eq_div], by rw [inv_mul_eq_div],
            by rw [inv_mul_eq_div]⟩
        · exact ⟨(traitSum e.2)⁻¹, inv_pos.mpr ht,
            by rw [inv_mul_eq_div], by rw [inv_mul_eq_div]⟩

unseal Rat.mul Rat.add Rat.sub Rat.inv in
/-- Witness for C4 on a one-person accumulated state. -/
theorem normalizeProbs_sums_to_one_witness :
    (∀ e ∈ ([("a", ⟨1, 1, 2, 1, 3⟩)] : List (String × PersonDist)),
      0 < geneSum e.2 ∧ 0 < traitSum e.2) ∧
    ∃ st', normalizeProbs [("a", ⟨1, 1, 2, 1, 3⟩)] = some st' ∧
      List.Forall₂ (fun e e' : String × PersonDist =>
        e'.1 = e.1 ∧ geneSum e'.2 = 1 ∧ traitSum e'.2 = 1 ∧
        (∃ c : ℚ, 0 < c ∧ e'.2.gene0 = c * e.2.gene0 ∧
          e'.2.gene1 = c * e.2.gene1 ∧ e'.2.gene2 = c * e.2.gene2) ∧
        (∃ c : ℚ, 0 < c ∧ e'.2.traitT = c * e.2.traitT ∧
          e'.2.traitF = c * e.2.traitF))
        [("a", ⟨1, 1, 2, 1, 3⟩)] st' :=
  ⟨by decide, normalizeProbs_sums_to_one _ (by decide)⟩

theorem normalizePerson_zero (d : PersonDist)
    (h : traitSum d = 0 ∨ geneSum d = 0) : normalizePerson d = none := by
  rcases h with h | h
  · have h' : d.traitT + d.traitF = 0 := h
    simp [normalizePerson, h']
  · have h' : d.gene0 + d.gene1 + d.gene2 = 0 := h
    unfold normalizePerson
    by_cases h1 : d.traitT + d.traitF = 1
    · simp [h1, h']
    · by_cases h2 : d.traitT + d.traitF = 0
      · simp [h1, h2]
      · simp [h1, h2, h']

/-- C5: if any person's accumulated trait mass or gene mass is exactly
zero, `normalize` raises (the division by the zero sum is attempted, since
0 differs from 1) and the run reports an error instead of returning a
distribution. -/
theorem normalizeProbs_zero_mass (st : List (String × PersonDist))
    (h : ∃ e ∈ st, traitSum e.2 = 0 ∨ geneSum e.2 = 0) :
    normalizeProbs st = none := by
  induction st with
  | nil => obtain ⟨e, he, _⟩ := h; exact absurd he (by simp)
  | cons e rest ih =>
      unfold normalizeProbs
      rw [List.mapM_cons]
      obtain ⟨x, hx, hzero⟩ := h
      rcases List.mem_cons.mp hx with rfl | hx'
      · rw [normalizePerson_zero x.2 hzero]
        rfl
      · cases hne : normalizePerson e.2 with
        | none => rfl
        | some d =>
            have := ih ⟨x, hx', hzero⟩
            unfold normalizeProbs at this
            rw [this]
            rfl

unseal Rat.mul Rat.add Rat.sub Rat.inv in
/-- Witness for C5 on an all-zero accumulated state. -/
theorem normalizeProbs_zero_mass_witness :
    (∃ e ∈ ([("a", (⟨0, 0, 0, 0, 0⟩ : PersonDist))] :
        List (String × PersonDist)), traitSum e.2 = 0 ∨ geneSum e.2 = 0) ∧
    normalizeProbs [("a", ⟨0, 0, 0, 0, 0⟩)] = none :=
  ⟨by decide, normalizeProbs_zero_mass _ (by decide)⟩

theorem geneSum_updatePerson (one_gene two_genes have_trait : Finset String)
    (p : ℚ) (e : String × PersonDist) :
    geneSum (updatePerson one_gene two_genes have_trait p e).2 =
      geneSum e.2 + p := by
  unfold updatePerson geneSum
  dsimp only
  split_ifs <;> dsimp only <;> ring

theorem traitSum_updatePerson (one_gene two_genes have_trait : Finset String)
    (p : ℚ) (e : String × PersonDist) :
    traitSum (updatePerson one_gene two_genes have_trait p e).2 =
      traitSum e.2 + p := by
  unfold updatePerson traitSum
  dsimp only
  split_ifs <;> dsimp only <;> ring

theorem update_preserves_balance (st : List (String × PersonDist))
    (one_gene two_genes have_trait : Finset String) (p : ℚ)
    (h : ∀ e ∈ st, geneSum e.2 = traitSum e.2) :
    ∀ e ∈ update st one_gene two_genes have_trait p,
      geneSum e.2 = traitSum e.2 := by
  intro e he
  obtain ⟨a, ha, rfl⟩ := List.mem_map.mp he
  rw [geneSum_updatePerson, traitSum_updatePerson, h a ha]

theorem foldl_update_balance
    (calls : List (Finset String × Finset String × Finset String × ℚ)) :
    ∀ (st : List (String × PersonDist)),
    (∀ e ∈ st, geneSum e.2 = traitSum e.2) →
    ∀ e ∈ calls.foldl
        (fun st c => update st c.1 c.2.1 c.2.2.1 c.2.2.2) st,
      geneSum e.2 = traitSum e.2 := by
  induction calls with
  | nil => intro st hst; simpa using hst
  | cons c rest ih =>
      intro st hst
      exact ih _ (update_preserves_balance st c.1 c.2.1 c.2.2.1 c.2.2.2 hst)

/-- C10: starting from the all-zero state of `main` and applying any
sequence of `update` calls with disjoint gene sets, every person's total
accumulated gene mass equals their total accumulated trait mass (each
call adds its probability to exactly one gene bucket and one trait bucket
per person). -/
theorem update_mass_balance (people : Population)
    (calls : List (Finset String × Finset String × Finset String × ℚ))
    (hd : ∀ c ∈ calls, Disjoint c.1 c.2.1) :
    ∀ e ∈ calls.foldl
        (fun st c => update st c.1 c.2.1 c.2.2.1 c.2.2.2)
        (initProbabilities people),
      geneSum e.2 = traitSum e.2 := by
  have hzero : geneSum initDist = traitSum initDist := by
    norm_num [geneSum, traitSum, initDist]
  have hinit : ∀ e ∈ initProbabilities people,
      geneSum e.2 = traitSum e.2 := by
    intro e he
    obtain ⟨a, ha, rfl⟩ := List.mem_map.mp he
    exact hzero
  exact foldl_update_balance calls (initProbabilities people) hinit

unseal Rat.mul Rat.add Rat.sub Rat.inv in
/-- Witness for C10: one update call on a one-person population. -/
theorem update_mass_balance_witness :
    (∀ c ∈ ([({"a"}, ∅, {"a"}, (1:ℚ))] :
        List (Finset String × Finset String × Finset String × ℚ)),
      Disjoint c.1 c.2.1) ∧
    ∀ e ∈ ([({"a"}, ∅, {"a"}, (1:ℚ))] :
        List (Finset String × Finset String × Finset String × ℚ)).foldl
        (fun st c => update st c.1 c.2.1 c.2.2.1 c.2.2.2)
        (initProbabilities [("a", ⟨none, none, none⟩)]),
      geneSum e.2 = traitSum e.2 :=
  ⟨by decide, update_mass_balance [("a", ⟨none, none, none⟩)] _ (by decide)⟩

unseal Rat.mul Rat.add Rat.sub Rat.inv in
/-- C7: for a single parentless person with no observed trait, the
completed run returns the raw gene prior table as the gene distribution
and the marginal over the prior of each emission column as the trait
distribution. -/
theorem runInference_single_person :
    runInference [("harry", ⟨none, none, none⟩)] =
      some [("harry",
        ⟨probsGene 0, probsGene 1, probsGene 2,
         probsGene 0 * probsTrait 0 true + probsGene 1 * probsTrait 1 true +
           probsGene 2 * probsTrait 2 true,
         probsGene 0 * probsTrait 0 false + probsGene 1 * probsTrait 1 false +
           probsGene 2 * probsTrait 2 false⟩)] := by
  decide

theorem mem_powerset {l : List String} {s : Finset String} :
    s ∈ powerset l ↔ s ⊆ l.toFinset := by
  induction l generalizing s with
  | nil => simp [powerset]
  | cons a l ih =>
      simp only [powerset, List.mem_append, List.mem_map, List.toFinset_cons]
      constructor
      · rintro (h | ⟨t, ht, rfl⟩)
        · exact (ih.mp h).trans (Finset.subset_insert a _)
        · exact Finset.insert_subset_insert a (ih.mp ht)
      · intro hs
        by_cases ha : a ∈ s
        · right
          refine ⟨s.erase a, ih.mpr ?_, Finset.insert_erase ha⟩
          intro x hx
          obtain ⟨hxa, hxs⟩ := Finset.mem_erase.mp hx
          rcases Finset.mem_insert.mp (hs hxs) with h | h
          · exact absurd h hxa
          · exact h
        · left
          apply ih.mpr
          intro x hx
          rcases Finset.mem_insert.mp (hs hx) with h | h
          · exact absurd (h ▸ hx) ha
          · exact h

theorem not_mem_of_mem_powerset {l : List String} {s : Finset String}
    {a : String} (ha : a ∉ l) (hs : s ∈ powerset l) : a ∉ s :=
  fun h => ha (by simpa using mem_powerset.mp hs h)

theorem nodup_powerset {l : List String} (h : l.Nodup) :
    (powerset l).Nodup := by
  induction l with
  | nil => simp [powerset]
  | cons a l ih =>
      obtain ⟨ha, hl⟩ := List.nodup_cons.mp h
      refine List.Nodup.append (ih hl) (List.Nodup.map_on ?_ (ih hl)) ?_
      · intro x hx y hy hxy
        have hax := not_mem_of_mem_powerset ha hx
        have hay := not_mem_of_mem_powerset ha hy
        rw [← Finset.erase_insert hax, hxy, Finset.erase_insert hay]
      · intro s hs hs'
        obtain ⟨t, ht, rfl⟩ := List.mem_map.mp hs'
        exact not_mem_of_mem_powerset ha hs (Finset.mem_insert_self a t)

theorem length_powerset (l : List String) :
    (powerset l).length = 2 ^ l.length := by
  induction l with
  | nil => rfl
  | cons a l ih =>
      simp only [powerset, List.length_append, List.length_map, ih,
        List.length_cons, pow_succ]
      ring

theorem toFinset_filter_not_mem (names : List String) (og : Finset String) :
    (names.filter (fun x => x ∉ og)).toFinset = names.toFinset \ og := by
  ext x
  simp [List.mem_filter, and_comm]

theorem mem_genePairs {names : List String} {og tg : Finset String} :
    (og, tg) ∈ genePairs names ↔
      og ⊆ names.toFinset ∧ tg ⊆ names.toFinset \ og := by
  unfold genePairs
  rw [List.mem_flatMap]
  constructor
  · rintro ⟨og', hog', hmem⟩
    obtain ⟨tg', htg', heq⟩ := List.mem_map.mp hmem
    have e1 : og' = og := congrArg Prod.fst heq
    have e2 : tg' = tg := congrArg Prod.snd heq
    subst e1
    subst e2
    refine ⟨mem_powerset.mp hog', ?_⟩
    have := mem_powerset.mp htg'
    rwa [toFinset_filter_not_mem] at this
  · rintro ⟨h1, h2⟩
    refine ⟨og, mem_powerset.mpr h1, List.mem_map.mpr ⟨tg, ?_, rfl⟩⟩
    apply mem_powerset.mpr
    rwa [toFinset_filter_not_mem]

theorem nodup_genePairs {names : List String} (h : names.Nodup) :
    (genePairs names).Nodup := by
  unfold genePairs
  rw [List.nodup_flatMap]
  constructor
  · intro og _
    refine List.Nodup.map_on ?_ (nodup_powerset (h.filter _))
    intro x _ y _ hxy
    exact congrArg Prod.snd hxy
  · refine List.Pairwise.imp ?_ (nodup_powerset h)
    intro a b hab p hpa hpb
    obtain ⟨x, _, rfl⟩ := List.mem_map.mp hpa
    obtain ⟨y, _, heq⟩ := List.mem_map.mp hpb
    exact hab ((congrArg Prod.fst heq).symm)

theorem powerset_filter_sum : ∀ (l : List String), l.Nodup →
    ((powerset l).map
      (fun og => 2 ^ (l.filter (fun x => x ∉ og)).length)).sum =
      3 ^ l.length := by
  intro l
  induction l with
  | nil => intro _; rfl
  | cons a l ih =>
      intro h
      obtain ⟨ha, hl⟩ := List.nodup_cons.mp h
      rw [show powerset (a :: l) = powerset l ++ (powerset l).map (insert a)
        from rfl]
      rw [List.map_append, List.sum_append, List.map_map]
      have h1 : ∀ og ∈ powerset l,
          (2:ℕ) ^ ((a :: l).filter (fun x => x ∉ og)).length =
            2 * 2 ^ (l.filter (fun x => x ∉ og)).length := by
        intro og hog
        have hao : a ∉ og := not_mem_of_mem_powerset ha hog
        rw [List.filter_cons_of_pos (by simpa using hao), List.length_cons,
          pow_succ]
        ring
      have h2 : ∀ og ∈ powerset l,
          ((fun og => (2:ℕ) ^ ((a :: l).filter (fun x => x ∉ og)).length) ∘
            insert a) og =
            2 ^ (l.filter (fun x => x ∉ og)).length := by
        intro og hog
        show (2:ℕ) ^ ((a :: l).filter (fun x => x ∉ insert a og)).length = _
        rw [List.filter_cons_of_neg (by simp)]
        have : l.filter (fun x => x ∉ insert a og) =
            l.filter (fun x => x ∉ og) := by
          apply List.filter_congr
          intro x hx
          have hxa : x ≠ a := fun hxa => ha (hxa ▸ hx)
          simp [Finset.mem_insert, hxa]
        rw [this]
      rw [List.map_congr_left h1, List.map_congr_left h2, List.sum_map_mul_left,
        ih hl, List.length_cons, pow_succ]
      ring

theorem length_genePairs {names : List String} (h : names.Nodup) :
    (genePairs names).length = 3 ^ names.length := by
  unfold genePairs
  rw [List.length_flatMap]
  have h1 : ∀ og ∈ powerset names,
      (List.length ∘ fun og =>
        ((powerset (names.filter (fun x => x ∉ og))).map
          (fun tg => (og, tg)))) og =
        2 ^ (names.filter (fun x => x ∉ og)).length := by
    intro og _
    show ((powerset (names.filter (fun x => x ∉ og))).map
      (fun tg => (og, tg))).length = _
    rw [List.length_map, length_powerset]
  rw [List.map_congr_left h1, powerset_filter_sum names h]

/-- C2: for a population with distinct names, the triple enumeration of
the Driver is exact on hypotheses: it is duplicate-free, its members are
precisely the triples of a trait subset with a disjoint
(one-gene, two-genes) pair of subsets, each trait subset meets exactly
3 to the n gene-set pairs, and in total 2 to the n times 3 to the n
hypotheses are enumerated. -/
theorem enumeration_exact (names : List String) (h : names.Nodup) :
    (allHypotheses names).Nodup ∧
    (∀ ht og tg, (ht, og, tg) ∈ allHypotheses names ↔
      ht ⊆ names.toFinset ∧ og ⊆ names.toFinset ∧
        tg ⊆ names.toFinset \ og) ∧
    (genePairs names).length = 3 ^ names.length ∧
    (allHypotheses names).length = 2 ^ names.length * 3 ^ names.length := by
  refine ⟨?_, ?_, length_genePairs h, ?_⟩
  · unfold allHypotheses
    rw [List.nodup_flatMap]
    refine ⟨fun ht _ => List.Nodup.map_on ?_ (nodup_genePairs h), ?_⟩
    · intro x _ y _ hxy
      have h1 : x.1 = y.1 := congrArg (Prod.fst ∘ Prod.snd) hxy
      have h2 : x.2 = y.2 := congrArg (Prod.snd ∘ Prod.snd) hxy
      exact Prod.ext h1 h2
    · refine List.Pairwise.imp ?_ (nodup_powerset h)
      intro a b hab p hpa hpb
      obtain ⟨x, _, rfl⟩ := List.mem_map.mp hpa
      obtain ⟨y, _, heq⟩ := List.mem_map.mp hpb
      exact hab ((congrArg Prod.fst heq).symm)
  · intro ht og tg
    unfold allHypotheses
    rw [List.mem_flatMap]
    constructor
    · rintro ⟨ht', hht', hmem⟩
      obtain ⟨p, hp, heq⟩ := List.mem_map.mp hmem
      have e1 : ht' = ht := congrArg Prod.fst heq
      have e2 : p.1 = og := congrArg (Prod.fst ∘ Prod.snd) heq
      have e3 : p.2 = tg := congrArg (Prod.snd ∘ Prod.snd) heq
      subst e1
      have hpp : (og, tg) ∈ genePairs names := by
        rw [← e2, ← e3]
        exact hp
      obtain ⟨hog, htg⟩ := mem_genePairs.mp hpp
      exact ⟨mem_powerset.mp hht', hog, htg⟩
    · rintro ⟨h1, h2, h3⟩
      exact ⟨ht, mem_powerset.mpr h1,
        List.mem_map.mpr ⟨(og, tg), mem_genePairs.mpr ⟨h2, h3⟩, rfl⟩⟩
  · unfold allHypotheses
    rw [List.length_flatMap]
    have h1 : ∀ ht ∈ powerset names,
        (List.length ∘ fun ht =>
          ((genePairs names).map (fun p => (ht, p.1, p.2)))) ht =
          3 ^ names.length := by
      intro ht _
      show ((genePairs names).map (fun p => (ht, p.1, p.2))).length = _
      rw [List.length_map, length_genePairs h]
    rw [List.map_congr_left h1]
    simp [List.map_const', List.sum_replicate, smul_eq_mul, length_powerset]

/-- Witness for C2 on a two-person name list. -/
theorem enumeration_exact_witness :
    (["a", "b"] : List String).Nodup ∧
    (genePairs ["a", "b"]).length = 3 ^ 2 ∧
    (allHypotheses ["a", "b"]).length = 2 ^ 2 * 3 ^ 2 :=
  ⟨by decide, (enumeration_exact ["a", "b"] (by decide)).2.2.1,
    (enumeration_exact ["a", "b"] (by decide)).2.2.2⟩
